import Mathlib

/-
Shallow embedding of `internal/core/src/segcore/ConcurrentVector.h` (milvus).

The C++ file defines a chunked, append-only columnar store:
  * `ThreadSafeVector<Type>`      - a growable sequence of chunks with a published
                                    atomic counter `size_` and an append-only deque `vec_`;
  * `ConcurrentVectorImpl<T, s>`  - the chunked logical array (growth, boundary-aware
                                    bulk copy, element access);
  * `ConcurrentVector<...>`       - scalar / float-vector / binary-vector front-ends.

Modelling conventions:
  * `int64_t` / `ssize_t` are modelled as `Int` (no arithmetic in this file can
    overflow 64 bits on the inputs the claims are about; C++ signed overflow is UB
    and out of scope);
  * C++ `/` and `%` on signed integers truncate toward zero: modelled by
    `Int.tdiv` / `Int.tmod`;
  * a chunk (`FixedVector<Type>`, a `boost::container::vector`) is modelled as a
    `List α`; `FixedVector<Type>(n)` value-initializes `n` slots, modelled as
    `List.replicate n d` where `d` is the element type's default value, passed
    explicitly;
  * the sequential semantics of each operation is modelled (the claims below are
    all single-thread functional properties; lock acquisition is a no-op
    sequentially);
  * a fatal assertion (the `Assert` macro from `utils/EasyAssert.h`, which the spec
    describes as a fatal, unrecoverable abort) is modelled as the `assertFail`
    outcome; an out-of-range raw memory access (undefined behaviour in C++) is
    modelled as the `undefinedAccess` outcome; state-mutating operations return
    `Option`, with `none` for any aborted/undefined execution.
-/

namespace MilvusSegcore

/-- Outcome of an access: either the fatal `Assert` macro fired (`assertFail`), or the
code performed an out-of-range raw memory access, undefined behaviour in C++
(`undefinedAccess`), or the access succeeded with a value (`ok`). -/
inductive AccessResult (α : Type) where
  | assertFail : AccessResult α
  | undefinedAccess : AccessResult α
  | ok (val : α) : AccessResult α
deriving DecidableEq

/-- Model of C++ `ThreadSafeVector<Type>`: `vec` models the `std::deque<Type> vec_`
and `size` models the published counter `std::atomic<int64_t> size_`. -/
structure ThreadSafeVector (α : Type) where
  vec : List α
  size : Int
deriving DecidableEq

/-- Model of the `while (vec_.size() < size) { vec_.emplace_back(args...); ++size_; }`
loop body of `ThreadSafeVector::emplace_to_at_least`: each iteration appends one
freshly constructed chunk `a` and increments the published counter.  (In C++ the
guard compares `vec_.size()`, a `size_t`, against the `int64_t` target; the loop is
reached only when the target exceeds the nonnegative published counter, so the
comparison is the signed one modelled here.) -/
def emplaceLoop (a : α) (vec : List α) (size n : Int) : List α × Int :=
  if h : (vec.length : Int) < n then
    emplaceLoop a (vec ++ [a]) (size + 1) n
  else
    (vec, size)
termination_by (n - vec.length).toNat
decreasing_by
  simp only [List.length_append, List.length_cons, List.length_nil]
  omega

/-- Model of `ThreadSafeVector::emplace_to_at_least(size, args...)`: if the published
counter already covers the target, return immediately (lock-free fast path);
otherwise run the append loop under the exclusive lock. -/
def ThreadSafeVector.emplace_to_at_least (v : ThreadSafeVector α) (n : Int) (a : α) :
    ThreadSafeVector α :=
  if n ≤ v.size then v
  else
    let p := emplaceLoop a v.vec v.size n
    { vec := p.1, size := p.2 }

/-- Model of `ThreadSafeVector::operator[](int64_t index)` (both overloads are
identical): `Assert(index < size_)` is the only bounds check; on success the
element `vec_[index]` is returned, and a deque access outside `[0, vec_.size())`
is undefined behaviour. -/
def ThreadSafeVector.get (v : ThreadSafeVector α) (index : Int) : AccessResult α :=
  if index < v.size then
    if h : 0 ≤ index ∧ index.toNat < v.vec.length then
      .ok (v.vec.get ⟨index.toNat, h.2⟩)
    else
      .undefinedAccess
  else
    .assertFail

/-- Model of `upper_div`.  Modelled from the spec: `upper_div` lives in
`utils/tools.h`, which is not among the supplied sources; the spec states that
`grow_to_at_least` computes `chunk_count = ceil(element_count / chunk_capacity)`,
so `upper_div` is ceiling division (for a positive divisor,
`(value + align - 1) / align` rounded toward minus infinity is exactly the
ceiling of `value / align`). -/
def upper_div (value align : Int) : Int :=
  (value + align - 1) / align

/-- Model of `ConcurrentVectorImpl<Type, is_scalar>` together with its base
`VectorBase`: `chunk_size` models the immutable `chunk_size_` member (the spec's
`chunk_capacity`), `Dim` the immutable `Dim` member, `chunks` the
`ThreadSafeVector<Chunk> chunks_` member.  A chunk is a `List α`. -/
structure ConcurrentVectorImpl (α : Type) where
  chunk_size : Int
  Dim : Int
  chunks : ThreadSafeVector (List α)
deriving DecidableEq

namespace ConcurrentVectorImpl

/-- Model of the constructor `ConcurrentVectorImpl(ssize_t dim, int64_t chunk_size)`:
it sets `Dim = is_scalar ? 1 : dim` and runs
`Assert(is_scalar ? dim == 1 : dim != 1)`; a failed assertion aborts construction
(`none`).  The chunk collection starts empty with published counter `0`. -/
def mk' (α : Type) (is_scalar : Bool) (dim chunk_size : Int) :
    Option (ConcurrentVectorImpl α) :=
  if (if is_scalar then dim = 1 else dim ≠ 1) then
    some { chunk_size := chunk_size
           Dim := if is_scalar then 1 else dim
           chunks := { vec := [], size := 0 } }
  else
    none

/-- Model of `ConcurrentVectorImpl::grow_to_at_least(int64_t element_count)`:
`chunk_count = upper_div(element_count, chunk_size_)` and
`chunks_.emplace_to_at_least(chunk_count, Dim * chunk_size_)`; each newly
constructed chunk is a `FixedVector<Type>(Dim * chunk_size_)`, i.e.
`Dim * chunk_size_` value-initialized slots (`d` is the element default value). -/
def grow_to_at_least (v : ConcurrentVectorImpl α) (d : α) (element_count : Int) :
    ConcurrentVectorImpl α :=
  let chunk_count := upper_div element_count v.chunk_size
  { v with
    chunks := v.chunks.emplace_to_at_least chunk_count
      (List.replicate (v.Dim * v.chunk_size).toNat d) }

/-- Model of `ConcurrentVectorImpl::num_chunk()`: `chunks_.size()`. -/
def num_chunk (v : ConcurrentVectorImpl α) : Int :=
  v.chunks.size

/-- Model of the private `ConcurrentVectorImpl::fill_chunk(chunk_id, chunk_offset,
element_count, source, source_offset)`: early return when `element_count <= 0`;
`Assert(chunk_id < chunks_.size())`; then `chunks_[chunk_id]` (which is
`ThreadSafeVector::operator[]`, modelled by `ThreadSafeVector.get`); then
`std::copy_n(source + source_offset * Dim, element_count * Dim, ptr + chunk_offset * Dim)`.
The copy reads `element_count * Dim` scalars of `source` starting at scalar offset
`source_offset * Dim` and overwrites the chunk starting at scalar offset
`chunk_offset * Dim`; any read or write outside the source buffer or the chunk
buffer is undefined behaviour (`none`). -/
def fill_chunk (v : ConcurrentVectorImpl α) (chunk_id chunk_offset element_count : Int)
    (source : List α) (source_offset : Int) : Option (ConcurrentVectorImpl α) :=
  if element_count ≤ 0 then
    some v
  else if chunk_id < v.chunks.size then
    match v.chunks.get chunk_id with
    | .ok chunk =>
      let so := source_offset * v.Dim
      let cnt := element_count * v.Dim
      let dst := chunk_offset * v.Dim
      if 0 ≤ so ∧ 0 ≤ dst ∧ so + cnt ≤ (source.length : Int) ∧
          dst + cnt ≤ (chunk.length : Int) then
        some { v with
          chunks := { v.chunks with
            vec := v.chunks.vec.set chunk_id.toNat
              (chunk.take dst.toNat
                ++ (source.drop so.toNat).take cnt.toNat
                ++ chunk.drop (dst.toNat + cnt.toNat)) } }
      else
        none
    | _ => none
  else
    none

/-- Model of the tail of `ConcurrentVectorImpl::set_data` after the first partial
chunk has been filled: the `while (element_count >= chunk_size_)` middle loop
followed by the final partial `fill_chunk`.  A nonpositive `chunk_size_` would
make the C++ loop run forever (the remaining count never decreases); that
divergent regime is modelled as `none`. -/
def setDataTail (v : ConcurrentVectorImpl α) (chunk_id element_count : Int)
    (source : List α) (source_offset : Int) : Option (ConcurrentVectorImpl α) :=
  if h1 : v.chunk_size ≤ element_count then
    if h2 : 0 < v.chunk_size then
      match v.fill_chunk chunk_id 0 v.chunk_size source source_offset with
      | some v2 =>
        setDataTail v2 (chunk_id + 1) (element_count - v.chunk_size) source
          (source_offset + v.chunk_size)
      | none => none
    else
      none
  else if 0 < element_count then
    v.fill_chunk chunk_id 0 element_count source source_offset
  else
    some v
termination_by element_count.toNat
decreasing_by
  omega

/-- Model of `ConcurrentVectorImpl::set_data(element_offset, source, element_count)`.
No-op when `element_count == 0`; a nonpositive `chunk_size_` makes the divisions
below undefined (division by zero) or the copy loop divergent, modelled as `none`.
Otherwise: grow to `element_offset + element_count`, split at
`chunk_id = element_offset / chunk_size_`, `chunk_offset = element_offset % chunk_size_`
(truncating C++ division), fill the first chunk, and hand the rest to the middle
loop with `source_offset += chunk_size_ - chunk_offset`. -/
def set_data (v : ConcurrentVectorImpl α) (d : α) (element_offset : Int)
    (source : List α) (element_count : Int) : Option (ConcurrentVectorImpl α) :=
  if element_count = 0 then
    some v
  else if v.chunk_size ≤ 0 then
    none
  else
    let g := v.grow_to_at_least d (element_offset + element_count)
    let chunk_id := Int.tdiv element_offset v.chunk_size
    let chunk_offset := Int.tmod element_offset v.chunk_size
    if chunk_offset + element_count ≤ v.chunk_size then
      g.fill_chunk chunk_id chunk_offset element_count source 0
    else
      let first_size := v.chunk_size - chunk_offset
      match g.fill_chunk chunk_id chunk_offset first_size source 0 with
      | some g2 =>
        g2.setDataTail (chunk_id + 1) (element_count - first_size) source
          (0 + (v.chunk_size - chunk_offset))
      | none => none

/-- Model of `ConcurrentVectorImpl::get_chunk(ssize_t chunk_index)`: simply
`chunks_[chunk_index]`, i.e. `ThreadSafeVector::operator[]`. -/
def get_chunk (v : ConcurrentVectorImpl α) (chunk_index : Int) : AccessResult (List α) :=
  v.chunks.get chunk_index

/-- Model of `ConcurrentVectorImpl::get_element(ssize_t element_index)`: computes
`chunk_id = element_index / chunk_size_`, `chunk_offset = element_index % chunk_size_`
(truncating C++ division) and returns the pointer
`get_chunk(chunk_id).data() + chunk_offset * Dim`.  The pointer is modelled by the
`Dim` scalar components it addresses; a pointer whose `Dim` components are not all
inside the chunk buffer is undefined behaviour to dereference. -/
def get_element (v : ConcurrentVectorImpl α) (element_index : Int) :
    AccessResult (List α) :=
  let chunk_id := Int.tdiv element_index v.chunk_size
  let chunk_offset := Int.tmod element_index v.chunk_size
  match v.get_chunk chunk_id with
  | .ok chunk =>
    let off := chunk_offset * v.Dim
    if 0 ≤ off ∧ off + v.Dim ≤ (chunk.length : Int) then
      .ok ((chunk.drop off.toNat).take v.Dim.toNat)
    else
      .undefinedAccess
  | .assertFail => .assertFail
  | .undefinedAccess => .undefinedAccess

/-- Model of `ConcurrentVectorImpl::operator[](ssize_t element_index)` (the scalar
single-value accessor): `Assert(Dim == 1)`, then
`get_chunk(element_index / chunk_size_)[element_index % chunk_size_]` with
truncating C++ division; the final unchecked `FixedVector::operator[]` is
undefined behaviour outside the chunk bounds. -/
def subscript (v : ConcurrentVectorImpl α) (element_index : Int) : AccessResult α :=
  if v.Dim = 1 then
    let chunk_id := Int.tdiv element_index v.chunk_size
    let chunk_offset := Int.tmod element_index v.chunk_size
    match v.get_chunk chunk_id with
    | .ok chunk =>
      if h : 0 ≤ chunk_offset ∧ chunk_offset.toNat < chunk.length then
        .ok (chunk.get ⟨chunk_offset.toNat, h.2⟩)
      else
        .undefinedAccess
    | .assertFail => .assertFail
    | .undefinedAccess => .undefinedAccess
  else
    .assertFail

end ConcurrentVectorImpl

/-- Model of the scalar front-end `ConcurrentVector<Type>`: delegates to
`ConcurrentVectorImpl<Type, true>` with `dim = 1`. -/
def mkScalarConcurrentVector (α : Type) (chunk_size : Int) :
    Option (ConcurrentVectorImpl α) :=
  ConcurrentVectorImpl.mk' α true 1 chunk_size

/-- Model of the dense float vector front-end `ConcurrentVector<FloatVector>`:
delegates to `ConcurrentVectorImpl<float, false>` with the user-supplied
dimension.  The float component type is kept abstract (`α`): the structure never
computes with component values. -/
def mkFloatConcurrentVector (α : Type) (dim chunk_size : Int) :
    Option (ConcurrentVectorImpl α) :=
  ConcurrentVectorImpl.mk' α false dim chunk_size

/-- Model of the packed binary vector front-end `ConcurrentVector<BinaryVector>`:
the base `ConcurrentVectorImpl<uint8_t, false>` is constructed with `dim / 8`
(truncating C++ division) - and its own `Assert(dim != 1)` on that byte-dimension
runs first, since base classes are initialized before the constructor body - and
then the body runs `Assert(dim % 8 == 0)`.  The member `binary_dim_` records the
original bit width; the returned pair is (base object, `binary_dim_`).  The byte
element type `uint8_t` is kept abstract (`α`). -/
def mkBinaryConcurrentVector (α : Type) (dim chunk_size : Int) :
    Option (ConcurrentVectorImpl α × Int) :=
  match ConcurrentVectorImpl.mk' α false (Int.tdiv dim 8) chunk_size with
  | some v => if Int.tmod dim 8 = 0 then some (v, dim) else none
  | none => none

/-- Structural invariant of `ThreadSafeVector` (spec section 3): the published
counter equals the number of chunks actually present. -/
def ThreadSafeVector.Inv (v : ThreadSafeVector α) : Prop :=
  v.size = (v.vec.length : Int)

instance (v : ThreadSafeVector α) : Decidable v.Inv := by
  unfold ThreadSafeVector.Inv
  infer_instance

/-- Well-formedness of a chunked logical array: the chunk collection invariant
holds, the configuration is a valid one (`chunk_size_` positive, `Dim`
nonnegative), and every allocated chunk has exactly `Dim * chunk_size_` scalar
slots - all facts that hold in every state reachable from a fresh construction
with such a configuration. -/
def ConcurrentVectorImpl.WF (v : ConcurrentVectorImpl α) : Prop :=
  v.chunks.Inv ∧ 0 < v.chunk_size ∧ 0 ≤ v.Dim ∧
    ∀ c ∈ v.chunks.vec, (c.length : Int) = v.Dim * v.chunk_size

instance (v : ConcurrentVectorImpl α) : Decidable v.WF := by
  unfold ConcurrentVectorImpl.WF
  infer_instance

/-- Proof-side denotation of the element pointer arithmetic of `get_element`: the
`Dim` scalar components of the logical element at index `i`, read from chunk
`i / chunk_size_` at in-chunk scalar offset `(i % chunk_size_) * Dim` (truncating
C++ division, as in the source).  Total function; `get_element_eq_readElem`
relates it to `get_element` on in-range indices. -/
def readElem (v : ConcurrentVectorImpl α) (i : Int) : List α :=
  ((v.chunks.vec.getD (Int.tdiv i v.chunk_size).toNat []).drop
      (Int.tmod i v.chunk_size * v.Dim).toNat).take v.Dim.toNat

/-! Arithmetic helper lemmas. -/

theorem toNat_mul_of_nonneg {a b : Int} (ha : 0 ≤ a) (hb : 0 ≤ b) :
    (a * b).toNat = a.toNat * b.toNat := by
  have h : ((a * b).toNat : Int) = ((a.toNat * b.toNat : Nat) : Int) := by
    rw [Int.toNat_of_nonneg (mul_nonneg ha hb), Nat.cast_mul,
      Int.toNat_of_nonneg ha, Int.toNat_of_nonneg hb]
  exact_mod_cast h

theorem le_upper_div_mul {n cs : Int} (hcs : 0 < cs) : n ≤ upper_div n cs * cs := by
  have h1 := Int.ediv_add_emod (n + cs - 1) cs
  have h3 := Int.emod_lt_of_pos (n + cs - 1) hcs
  unfold upper_div
  rw [mul_comm]
  linarith

theorem upper_div_nonneg {n cs : Int} (hn : 0 ≤ n) (hcs : 0 < cs) :
    0 ≤ upper_div n cs :=
  Int.ediv_nonneg (by omega) (le_of_lt hcs)

theorem upper_div_mono {m n cs : Int} (hcs : 0 < cs) (h : m ≤ n) :
    upper_div m cs ≤ upper_div n cs :=
  Int.ediv_le_ediv hcs (by omega)

theorem tdiv_mul_add {ci t cs : Int} (hci : 0 ≤ ci) (ht : 0 ≤ t) (htcs : t < cs) :
    Int.tdiv (ci * cs + t) cs = ci := by
  have hcs : 0 < cs := lt_of_le_of_lt ht htcs
  rw [Int.tdiv_eq_ediv (add_nonneg (mul_nonneg hci (le_of_lt hcs)) ht) (le_of_lt hcs)]
  rw [add_comm, Int.add_mul_ediv_right t ci (ne_of_gt hcs),
    Int.ediv_eq_zero_of_lt ht htcs, zero_add]

theorem tmod_mul_add {ci t cs : Int} (hci : 0 ≤ ci) (ht : 0 ≤ t) (htcs : t < cs) :
    Int.tmod (ci * cs + t) cs = t := by
  have hcs : 0 < cs := lt_of_le_of_lt ht htcs
  rw [Int.tmod_eq_emod (add_nonneg (mul_nonneg hci (le_of_lt hcs)) ht) (le_of_lt hcs)]
  rw [add_comm, Int.add_mul_emod_self, Int.emod_eq_of_lt ht htcs]

/-! List helper lemmas. -/

theorem slice_of_slice (l : List α) (a b p q : Nat) (h : p + q ≤ b) :
    (((l.drop a).take b).drop p).take q = (l.drop (a + p)).take q := by
  rw [List.drop_take, List.drop_drop, List.take_take]
  congr 1
  omega

/-! Characterization of the `ThreadSafeVector` operations. -/

theorem emplaceLoop_spec (a : α) :
    ∀ (fuel : Nat) (vec : List α) (size n : Int), (n - vec.length).toNat ≤ fuel →
      emplaceLoop a vec size n
        = (vec ++ List.replicate (n - vec.length).toNat a,
           size + ((n - vec.length).toNat : Int)) := by
  intro fuel
  induction fuel with
  | zero =>
    intro vec size n h
    rw [emplaceLoop]
    have hn : ¬ ((vec.length : Int) < n) := by omega
    simp [hn]
    omega
  | succ f ih =>
    intro vec size n h
    rw [emplaceLoop]
    by_cases hn : (vec.length : Int) < n
    · rw [dif_pos hn]
      rw [ih (vec ++ [a]) (size + 1) n (by simp [List.length_append]; omega)]
      have hk : (n - ((vec ++ [a]).length : Int)).toNat + 1 = (n - vec.length).toNat := by
        simp only [List.length_append, List.length_cons, List.length_nil]
        omega
      refine Prod.ext ?_ ?_
      · show vec ++ [a] ++ List.replicate (n - ((vec ++ [a]).length : Int)).toNat a
            = vec ++ List.replicate (n - (vec.length : Int)).toNat a
        rw [List.append_assoc]
        congr 1
        rw [← hk, List.replicate_succ]
        rfl
      · show size + 1 + ((n - ((vec ++ [a]).length : Int)).toNat : Int)
            = size + ((n - (vec.length : Int)).toNat : Int)
        rw [← hk]
        push_cast
        ring
    · rw [dif_neg hn]
      have h0 : (n - (vec.length : Int)).toNat = 0 := by omega
      simp [h0]

theorem emplace_to_at_least_spec (v : ThreadSafeVector α) (n : Int) (a : α)
    (hv : v.Inv) :
    v.emplace_to_at_least n a
      = { vec := v.vec ++ List.replicate (n - v.vec.length).toNat a,
          size := v.size + ((n - v.vec.length).toNat : Int) } := by
  unfold ThreadSafeVector.emplace_to_at_least
  unfold ThreadSafeVector.Inv at hv
  by_cases h : n ≤ v.size
  · have h0 : (n - (v.vec.length : Int)).toNat = 0 := by omega
    simp [h, h0]
  · rw [if_neg h]
    show ({ vec := (emplaceLoop a v.vec v.size n).1,
            size := (emplaceLoop a v.vec v.size n).2 } : ThreadSafeVector α) = _
    rw [emplaceLoop_spec a (n - (v.vec.length : Int)).toNat v.vec v.size n (le_refl _)]

theorem emplace_size (v : ThreadSafeVector α) (n : Int) (a : α) (hv : v.Inv) :
    (v.emplace_to_at_least n a).size = max v.size n := by
  rw [emplace_to_at_least_spec v n a hv]
  unfold ThreadSafeVector.Inv at hv
  simp only
  omega

theorem emplace_Inv (v : ThreadSafeVector α) (n : Int) (a : α) (hv : v.Inv) :
    (v.emplace_to_at_least n a).Inv := by
  rw [emplace_to_at_least_spec v n a hv]
  unfold ThreadSafeVector.Inv at hv ⊢
  simp only [List.length_append, List.length_replicate]
  push_cast
  omega

theorem emplace_size_mono (v : ThreadSafeVector α) (n : Int) (a : α) :
    v.size ≤ (v.emplace_to_at_least n a).size := by
  unfold ThreadSafeVector.emplace_to_at_least
  by_cases h : n ≤ v.size
  · simp [h]
  · rw [if_neg h]
    show v.size ≤ (emplaceLoop a v.vec v.size n).2
    rw [emplaceLoop_spec a (n - (v.vec.length : Int)).toNat v.vec v.size n (le_refl _)]
    simp only
    omega

theorem emplace_append_only (v : ThreadSafeVector α) (n : Int) (a : α) :
    ∃ t, (v.emplace_to_at_least n a).vec = v.vec ++ t := by
  unfold ThreadSafeVector.emplace_to_at_least
  by_cases h : n ≤ v.size
  · exact ⟨[], by simp [h]⟩
  · rw [if_neg h]
    refine ⟨List.replicate (n - (v.vec.length : Int)).toNat a, ?_⟩
    show (emplaceLoop a v.vec v.size n).1 = _
    rw [emplaceLoop_spec a (n - (v.vec.length : Int)).toNat v.vec v.size n (le_refl _)]

theorem ThreadSafeVector_get_ok (v : ThreadSafeVector α) (i : Int) (hv : v.Inv)
    (h0 : 0 ≤ i) (hi : i < v.size) :
    ∃ h : i.toNat < v.vec.length, v.get i = .ok (v.vec.get ⟨i.toNat, h⟩) := by
  unfold ThreadSafeVector.Inv at hv
  have hlt : i.toNat < v.vec.length := by omega
  refine ⟨hlt, ?_⟩
  unfold ThreadSafeVector.get
  rw [if_pos hi, dif_pos ⟨h0, hlt⟩]

/-! Characterization of growth. -/

theorem grow_chunk_size (v : ConcurrentVectorImpl α) (d : α) (n : Int) :
    (v.grow_to_at_least d n).chunk_size = v.chunk_size := rfl

theorem grow_Dim (v : ConcurrentVectorImpl α) (d : α) (n : Int) :
    (v.grow_to_at_least d n).Dim = v.Dim := rfl

theorem grow_vec (v : ConcurrentVectorImpl α) (d : α) (n : Int) (hv : v.chunks.Inv) :
    (v.grow_to_at_least d n).chunks.vec
      = v.chunks.vec
        ++ List.replicate (upper_div n v.chunk_size - v.chunks.vec.length).toNat
            (List.replicate (v.Dim * v.chunk_size).toNat d) := by
  show (v.chunks.emplace_to_at_least (upper_div n v.chunk_size)
      (List.replicate (v.Dim * v.chunk_size).toNat d)).vec = _
  rw [emplace_to_at_least_spec _ _ _ hv]

theorem grow_size (v : ConcurrentVectorImpl α) (d : α) (n : Int) (hv : v.chunks.Inv) :
    (v.grow_to_at_least d n).chunks.size
      = max v.chunks.size (upper_div n v.chunk_size) := by
  unfold ConcurrentVectorImpl.grow_to_at_least
  exact emplace_size _ _ _ hv

theorem grow_Inv (v : ConcurrentVectorImpl α) (d : α) (n : Int) (hv : v.chunks.Inv) :
    (v.grow_to_at_least d n).chunks.Inv := by
  unfold ConcurrentVectorImpl.grow_to_at_least
  exact emplace_Inv _ _ _ hv

theorem grow_WF (v : ConcurrentVectorImpl α) (d : α) (n : Int) (hwf : v.WF) :
    (v.grow_to_at_least d n).WF := by
  obtain ⟨hInv, hcs, hD, hlen⟩ := hwf
  refine ⟨grow_Inv v d n hInv, hcs, hD, ?_⟩
  rw [grow_vec v d n hInv]
  intro c hc
  rcases List.mem_append.mp hc with h | h
  · exact hlen c h
  · rw [List.eq_of_mem_replicate h, List.length_replicate,
      Int.toNat_of_nonneg (mul_nonneg hD (le_of_lt hcs))]
    rfl

theorem grow_capacity (v : ConcurrentVectorImpl α) (d : α) (n : Int) (hwf : v.WF) :
    n ≤ ((v.grow_to_at_least d n).chunks.vec.length : Int) * v.chunk_size := by
  obtain ⟨hInv, hcs, hD, hlen⟩ := hwf
  rw [grow_vec v d n hInv]
  simp only [List.length_append, List.length_replicate]
  have h1 : n ≤ upper_div n v.chunk_size * v.chunk_size := le_upper_div_mul hcs
  have h2 : upper_div n v.chunk_size
      ≤ ((v.chunks.vec.length : Int)
          + ((upper_div n v.chunk_size - v.chunks.vec.length).toNat : Int)) := by
    omega
  push_cast
  nlinarith

/-- Every chunk of a well-formed state has exactly `Dim * chunk_size_` scalar
slots. -/
theorem chunk_len (v : ConcurrentVectorImpl α) (hwf : v.WF) (i : Nat)
    (hi : i < v.chunks.vec.length) :
    ((v.chunks.vec.getD i []).length : Int) = v.Dim * v.chunk_size := by
  obtain ⟨hInv, hcs, hD, hlen⟩ := hwf
  apply hlen
  rw [List.getD_eq_getElem?_getD, List.getElem?_eq_getElem hi]
  exact List.getElem_mem hi

/-! Characterization of `fill_chunk`. -/

theorem fill_chunk_eq (v : ConcurrentVectorImpl α) (ci co ec : Int) (src : List α)
    (so : Int) (hInv : v.chunks.Inv) (hD : 0 ≤ v.Dim)
    (hci : 0 ≤ ci) (hlt : ci.toNat < v.chunks.vec.length)
    (hco : 0 ≤ co) (hec : 0 < ec) (hso : 0 ≤ so)
    (hsrc : (so + ec) * v.Dim ≤ (src.length : Int))
    (hfit : (co + ec) * v.Dim ≤ ((v.chunks.vec.getD ci.toNat []).length : Int)) :
    v.fill_chunk ci co ec src so
      = some { v with chunks := { v.chunks with
          vec := v.chunks.vec.set ci.toNat
            ((v.chunks.vec.getD ci.toNat []).take (co * v.Dim).toNat
              ++ (src.drop (so * v.Dim).toNat).take (ec * v.Dim).toNat
              ++ (v.chunks.vec.getD ci.toNat []).drop
                  ((co * v.Dim).toNat + (ec * v.Dim).toNat)) } } := by
  unfold ConcurrentVectorImpl.fill_chunk
  unfold ThreadSafeVector.Inv at hInv
  have hecn : ¬ (ec ≤ 0) := by omega
  have hcisz : ci < v.chunks.size := by omega
  rw [if_neg hecn, if_pos hcisz]
  obtain ⟨hlt2, hget⟩ := ThreadSafeVector_get_ok v.chunks ci hInv hci (by omega)
  have hchunk : v.chunks.vec.get ⟨ci.toNat, hlt2⟩ = v.chunks.vec.getD ci.toNat [] := by
    rw [List.getD_eq_getElem _ _ hlt2]
    rfl
  rw [hget, hchunk]
  dsimp only
  have hcond : 0 ≤ so * v.Dim ∧ 0 ≤ co * v.Dim ∧
      so * v.Dim + ec * v.Dim ≤ (src.length : Int) ∧
      co * v.Dim + ec * v.Dim ≤ ((v.chunks.vec.getD ci.toNat []).length : Int) := by
    refine ⟨mul_nonneg hso hD, mul_nonneg hco hD, ?_, ?_⟩
    · rw [← add_mul]
      exact hsrc
    · rw [← add_mul]
      exact hfit
  rw [if_pos hcond]

theorem fill_chunk_dims (v v' : ConcurrentVectorImpl α) (ci co ec : Int)
    (src : List α) (so : Int) (h : v.fill_chunk ci co ec src so = some v') :
    v'.chunk_size = v.chunk_size ∧ v'.Dim = v.Dim ∧ v'.chunks.size = v.chunks.size ∧
      v'.chunks.vec.length = v.chunks.vec.length := by
  unfold ConcurrentVectorImpl.fill_chunk at h
  split at h
  · cases h
    exact ⟨rfl, rfl, rfl, rfl⟩
  · split at h
    · split at h
      · dsimp only at h
        split at h
        · cases h
          refine ⟨rfl, rfl, rfl, ?_⟩
          simp [List.length_set]
        · cases h
      · cases h
    · cases h

/-! Reading elements. -/

theorem readElem_at (v : ConcurrentVectorImpl α) (ci t : Int) (hci : 0 ≤ ci)
    (ht : 0 ≤ t) (htcs : t < v.chunk_size) :
    readElem v (ci * v.chunk_size + t)
      = ((v.chunks.vec.getD ci.toNat []).drop (t * v.Dim).toNat).take v.Dim.toNat := by
  unfold readElem
  rw [tdiv_mul_add hci ht htcs, tmod_mul_add hci ht htcs]

theorem get_element_eq_readElem (v : ConcurrentVectorImpl α) (i : Int) (hwf : v.WF)
    (hi : 0 ≤ i) (hlt : i < (v.chunks.vec.length : Int) * v.chunk_size) :
    v.get_element i = .ok (readElem v i) := by
  obtain ⟨hInv, hcs, hD, hlenAll⟩ := hwf
  have hdiv : Int.tdiv i v.chunk_size = i / v.chunk_size :=
    Int.tdiv_eq_ediv hi (le_of_lt hcs)
  have hmod : Int.tmod i v.chunk_size = i % v.chunk_size :=
    Int.tmod_eq_emod hi (le_of_lt hcs)
  have hq0 : 0 ≤ i / v.chunk_size := Int.ediv_nonneg hi (le_of_lt hcs)
  have hqlt : i / v.chunk_size < (v.chunks.vec.length : Int) :=
    (Int.ediv_lt_iff_lt_mul hcs).mpr hlt
  unfold ThreadSafeVector.Inv at hInv
  obtain ⟨h2, hget⟩ := ThreadSafeVector_get_ok v.chunks (i / v.chunk_size) hInv hq0
    (by omega)
  have hchunk : v.chunks.vec.get ⟨(i / v.chunk_size).toNat, h2⟩
      = v.chunks.vec.getD (i / v.chunk_size).toNat [] := by
    rw [List.getD_eq_getElem _ _ h2]
    rfl
  have hclen : ((v.chunks.vec.getD (i / v.chunk_size).toNat []).length : Int)
      = v.Dim * v.chunk_size :=
    chunk_len v ⟨hInv, hcs, hD, hlenAll⟩ _ h2
  have hr0 : 0 ≤ i % v.chunk_size := Int.emod_nonneg i (ne_of_gt hcs)
  have hr1 : i % v.chunk_size < v.chunk_size := Int.emod_lt_of_pos i hcs
  have hoff : (i % v.chunk_size) * v.Dim + v.Dim ≤ v.Dim * v.chunk_size := by
    calc (i % v.chunk_size) * v.Dim + v.Dim = (i % v.chunk_size + 1) * v.Dim := by ring
    _ ≤ v.chunk_size * v.Dim := mul_le_mul_of_nonneg_right (by omega) hD
    _ = v.Dim * v.chunk_size := mul_comm _ _
  unfold ConcurrentVectorImpl.get_element ConcurrentVectorImpl.get_chunk
  dsimp only
  rw [hdiv, hmod, hget, hchunk]
  dsimp only
  rw [if_pos ⟨mul_nonneg hr0 hD, by omega⟩]
  unfold readElem
  rw [hdiv, hmod]

theorem readElem_after_fill (v : ConcurrentVectorImpl α) (hwf : v.WF)
    (ci co m : Int) (src : List α) (so : Int)
    (hci : 0 ≤ ci) (hlt : ci.toNat < v.chunks.vec.length)
    (hco : 0 ≤ co) (hm : 0 < m) (hfit : co + m ≤ v.chunk_size) (hso : 0 ≤ so)
    (hsrc : (so + m) * v.Dim ≤ (src.length : Int)) :
    ∃ v2, v.fill_chunk ci co m src so = some v2 ∧ v2.WF ∧ v2.Dim = v.Dim ∧
      v2.chunk_size = v.chunk_size ∧ v2.chunks.vec.length = v.chunks.vec.length ∧
      v2.chunks.size = v.chunks.size ∧
      (∀ j : Nat, j ≠ ci.toNat → v2.chunks.vec.getD j [] = v.chunks.vec.getD j []) ∧
      (∀ t : Int, 0 ≤ t → t < m →
        ((v2.chunks.vec.getD ci.toNat []).drop ((co + t) * v.Dim).toNat).take
            v.Dim.toNat
          = (src.drop ((so + t) * v.Dim).toNat).take v.Dim.toNat) := by
  obtain ⟨hInv, hcs, hD, hlenAll⟩ := hwf
  have hwf' : v.WF := ⟨hInv, hcs, hD, hlenAll⟩
  have hclen : ((v.chunks.vec.getD ci.toNat []).length : Int) = v.Dim * v.chunk_size :=
    chunk_len v hwf' ci.toNat hlt
  have hfitC : (co + m) * v.Dim ≤ ((v.chunks.vec.getD ci.toNat []).length : Int) := by
    rw [hclen]
    calc (co + m) * v.Dim ≤ v.chunk_size * v.Dim :=
          mul_le_mul_of_nonneg_right hfit hD
    _ = v.Dim * v.chunk_size := mul_comm _ _
  have heq := fill_chunk_eq v ci co m src so hInv hD hci hlt hco hm hso hsrc hfitC
  -- abbreviations and cast facts
  have hcoD : (((co * v.Dim).toNat : Nat) : Int) = co * v.Dim :=
    Int.toNat_of_nonneg (mul_nonneg hco hD)
  have hmD : (((m * v.Dim).toNat : Nat) : Int) = m * v.Dim :=
    Int.toNat_of_nonneg (mul_nonneg (le_of_lt hm) hD)
  have hsoD : (((so * v.Dim).toNat : Nat) : Int) = so * v.Dim :=
    Int.toNat_of_nonneg (mul_nonneg hso hD)
  have hsrc' : so * v.Dim + m * v.Dim ≤ (src.length : Int) := by
    rw [← add_mul]
    exact hsrc
  have hfit' : co * v.Dim + m * v.Dim ≤ ((v.chunks.vec.getD ci.toNat []).length : Int) := by
    rw [← add_mul]
    exact hfitC
  have hseglen : ((src.drop (so * v.Dim).toNat).take (m * v.Dim).toNat).length
      = (m * v.Dim).toNat := by
    rw [List.length_take, List.length_drop]
    omega
  have htakelen : ((v.chunks.vec.getD ci.toNat []).take (co * v.Dim).toNat).length
      = (co * v.Dim).toNat := by
    rw [List.length_take]
    omega
  have hnewlen :
      ((v.chunks.vec.getD ci.toNat []).take (co * v.Dim).toNat
        ++ (src.drop (so * v.Dim).toNat).take (m * v.Dim).toNat
        ++ (v.chunks.vec.getD ci.toNat []).drop
            ((co * v.Dim).toNat + (m * v.Dim).toNat)).length
      = (v.chunks.vec.getD ci.toNat []).length := by
    simp only [List.length_append, List.length_take, List.length_drop]
    omega
  refine ⟨_, heq, ?_, rfl, rfl, by simp [List.length_set], rfl, ?_, ?_⟩
  · -- well-formedness of the filled state
    refine ⟨?_, hcs, hD, ?_⟩
    · unfold ThreadSafeVector.Inv at hInv ⊢
      simp only [List.length_set]
      exact hInv
    · intro c hc
      rcases List.mem_or_eq_of_mem_set hc with h | h
      · exact hlenAll c h
      · rw [h]
        show ((_ : List α).length : Int) = _
        rw [hnewlen]
        exact hclen
  · -- other chunks unchanged
    intro j hj
    simp only [List.getD_eq_getElem?_getD]
    rw [List.getElem?_set_ne (fun hcontra => hj hcontra.symm)]
  · -- reading the written element range
    intro t ht htm
    have hgetset : ((v.chunks.vec.set ci.toNat
        ((v.chunks.vec.getD ci.toNat []).take (co * v.Dim).toNat
          ++ (src.drop (so * v.Dim).toNat).take (m * v.Dim).toNat
          ++ (v.chunks.vec.getD ci.toNat []).drop
              ((co * v.Dim).toNat + (m * v.Dim).toNat))).getD ci.toNat [])
        = ((v.chunks.vec.getD ci.toNat []).take (co * v.Dim).toNat
          ++ (src.drop (so * v.Dim).toNat).take (m * v.Dim).toNat
          ++ (v.chunks.vec.getD ci.toNat []).drop
              ((co * v.Dim).toNat + (m * v.Dim).toNat)) := by
      simp only [List.getD_eq_getElem?_getD]
      rw [List.getElem?_set_self (by simpa using hlt)]
      rfl
    dsimp only
    rw [hgetset]
    -- cast facts for the index arithmetic
    have htD : (((t * v.Dim).toNat : Nat) : Int) = t * v.Dim :=
      Int.toNat_of_nonneg (mul_nonneg ht hD)
    have hDn : ((v.Dim.toNat : Nat) : Int) = v.Dim := Int.toNat_of_nonneg hD
    have hcotD : (((co + t) * v.Dim).toNat : Int) = co * v.Dim + t * v.Dim := by
      rw [Int.toNat_of_nonneg (mul_nonneg (by omega) hD)]
      ring
    have hsotD : (((so + t) * v.Dim).toNat : Int) = so * v.Dim + t * v.Dim := by
      rw [Int.toNat_of_nonneg (mul_nonneg (by omega) hD)]
      ring
    have hstep : t * v.Dim + v.Dim ≤ m * v.Dim := by
      calc t * v.Dim + v.Dim = (t + 1) * v.Dim := by ring
      _ ≤ m * v.Dim := mul_le_mul_of_nonneg_right (by omega) hD
    have hsplit : ((co + t) * v.Dim).toNat
        = ((v.chunks.vec.getD ci.toNat []).take (co * v.Dim).toNat).length
          + (t * v.Dim).toNat := by
      rw [htakelen]
      omega
    rw [hsplit, List.append_assoc, List.drop_append]
    have hdropin : (t * v.Dim).toNat
        ≤ ((src.drop (so * v.Dim).toNat).take (m * v.Dim).toNat).length := by
      rw [hseglen]
      omega
    rw [List.drop_append_of_le_length hdropin]
    have htakein : v.Dim.toNat
        ≤ (((src.drop (so * v.Dim).toNat).take (m * v.Dim).toNat).drop
            (t * v.Dim).toNat).length := by
      rw [List.length_drop, hseglen]
      omega
    rw [List.take_append_of_le_length htakein]
    rw [slice_of_slice src ((so * v.Dim).toNat) ((m * v.Dim).toNat)
      ((t * v.Dim).toNat) v.Dim.toNat (by omega)]
    have hidx : (so * v.Dim).toNat + (t * v.Dim).toNat = ((so + t) * v.Dim).toNat := by
      omega
    rw [hidx]

/-! Characterization of the copy loop of `set_data`. -/

theorem setDataTail_spec :
    ∀ (fuel : Nat) (v : ConcurrentVectorImpl α) (ci ec : Int) (src : List α) (so : Int),
      ec.toNat ≤ fuel → v.WF → 0 ≤ ci → 0 ≤ ec → 0 ≤ so →
      ci * v.chunk_size + ec ≤ (v.chunks.vec.length : Int) * v.chunk_size →
      (so + ec) * v.Dim ≤ (src.length : Int) →
      ∃ v', v.setDataTail ci ec src so = some v' ∧
        v'.WF ∧ v'.Dim = v.Dim ∧ v'.chunk_size = v.chunk_size ∧
        v'.chunks.vec.length = v.chunks.vec.length ∧
        v'.chunks.size = v.chunks.size ∧
        (∀ j : Nat, (j : Int) < ci → v'.chunks.vec.getD j [] = v.chunks.vec.getD j []) ∧
        (∀ t : Int, 0 ≤ t → t < ec →
          readElem v' (ci * v.chunk_size + t)
            = (src.drop ((so + t) * v.Dim).toNat).take v.Dim.toNat) := by
  intro fuel
  induction fuel with
  | zero =>
    intro v ci ec src so hfuel hwf hci hec hso hcap hsrc
    obtain ⟨hInv, hcs, hD, hlenAll⟩ := hwf
    have hec0 : ec = 0 := by omega
    subst hec0
    have hc1 : ¬ (v.chunk_size ≤ (0 : Int)) := by omega
    rw [ConcurrentVectorImpl.setDataTail, dif_neg hc1, if_neg (lt_irrefl 0)]
    exact ⟨v, rfl, ⟨hInv, hcs, hD, hlenAll⟩, rfl, rfl, rfl, rfl,
      fun j _ => rfl, fun t ht htm => absurd (lt_of_le_of_lt ht htm) (lt_irrefl 0)⟩
  | succ f ih =>
    intro v ci ec src so hfuel hwf hci hec hso hcap hsrc
    obtain ⟨hInv, hcs, hD, hlenAll⟩ := hwf
    have hwf' : v.WF := ⟨hInv, hcs, hD, hlenAll⟩
    by_cases h1 : v.chunk_size ≤ ec
    · -- middle loop: fill one whole chunk and recurse
      have hexp : (ci + 1) * v.chunk_size = ci * v.chunk_size + v.chunk_size := by ring
      have hmul : ci * v.chunk_size < (v.chunks.vec.length : Int) * v.chunk_size := by
        linarith
      have hcilen : ci < (v.chunks.vec.length : Int) :=
        lt_of_mul_lt_mul_right hmul (le_of_lt hcs)
      have hcitoNat : ci.toNat < v.chunks.vec.length := by omega
      have hsrc2 : (so + v.chunk_size) * v.Dim ≤ (src.length : Int) :=
        le_trans (mul_le_mul_of_nonneg_right (by omega) hD) hsrc
      obtain ⟨v2, hfill, hwf2, hDim2, hcs2, hlen2, hsize2, hpres2, hread2⟩ :=
        readElem_after_fill v hwf' ci 0 v.chunk_size src so hci hcitoNat (le_refl 0)
          hcs (by omega) hso hsrc2
      simp only [zero_add] at hread2
      have hcap2 : (ci + 1) * v2.chunk_size + (ec - v.chunk_size)
          ≤ (v2.chunks.vec.length : Int) * v2.chunk_size := by
        rw [hcs2, hlen2, hexp]
        linarith
      have hsrc3 : ((so + v.chunk_size) + (ec - v.chunk_size)) * v2.Dim
          ≤ (src.length : Int) := by
        rw [hDim2]
        have harg : (so + v.chunk_size) + (ec - v.chunk_size) = so + ec := by ring
        rw [harg]
        exact hsrc
      obtain ⟨v', htail, hwf3, hDim3, hcs3, hlen3, hsize3, hpres3, hread3⟩ :=
        ih v2 (ci + 1) (ec - v.chunk_size) src (so + v.chunk_size) (by omega) hwf2
          (by omega) (by omega) (by omega) hcap2 hsrc3
      refine ⟨v', ?_, hwf3, by rw [hDim3, hDim2], by rw [hcs3, hcs2],
        by rw [hlen3, hlen2], by rw [hsize3, hsize2], ?_, ?_⟩
      · rw [ConcurrentVectorImpl.setDataTail, dif_pos h1, dif_pos hcs, hfill]
        exact htail
      · intro j hj
        rw [hpres3 j (by omega), hpres2 j (by omega)]
      · intro t ht htm
        by_cases htc : t < v.chunk_size
        · rw [show v.chunk_size = v'.chunk_size from (hcs3.trans hcs2).symm]
          rw [readElem_at v' ci t hci ht (by rw [hcs3, hcs2]; exact htc)]
          rw [show v'.Dim = v.Dim from hDim3.trans hDim2]
          rw [hpres3 ci.toNat (by omega)]
          exact hread2 t ht htc
        · have h := hread3 (t - v.chunk_size) (by omega) (by omega)
          rw [hcs2, hDim2] at h
          have hidx : (ci + 1) * v.chunk_size + (t - v.chunk_size)
              = ci * v.chunk_size + t := by ring
          have harg : so + v.chunk_size + (t - v.chunk_size) = so + t := by ring
          rw [hidx, harg] at h
          exact h
    · -- final partial chunk (or nothing left)
      by_cases h2 : 0 < ec
      · have hmul : ci * v.chunk_size < (v.chunks.vec.length : Int) * v.chunk_size := by
          linarith
        have hcilen : ci < (v.chunks.vec.length : Int) :=
          lt_of_mul_lt_mul_right hmul (le_of_lt hcs)
        have hcitoNat : ci.toNat < v.chunks.vec.length := by omega
        obtain ⟨v2, hfill, hwf2, hDim2, hcs2, hlen2, hsize2, hpres2, hread2⟩ :=
          readElem_after_fill v hwf' ci 0 ec src so hci hcitoNat (le_refl 0)
            h2 (by omega) hso hsrc
        simp only [zero_add] at hread2
        refine ⟨v2, ?_, hwf2, hDim2, hcs2, hlen2, hsize2, ?_, ?_⟩
        · rw [ConcurrentVectorImpl.setDataTail, dif_neg h1, if_pos h2]
          exact hfill
        · intro j hj
          exact hpres2 j (by omega)
        · intro t ht htm
          rw [show v.chunk_size = v2.chunk_size from hcs2.symm]
          rw [readElem_at v2 ci t hci ht (by rw [hcs2]; omega)]
          rw [show v2.Dim = v.Dim from hDim2]
          exact hread2 t ht htm
      · have hec0 : ec = 0 := by omega
        subst hec0
        rw [ConcurrentVectorImpl.setDataTail, dif_neg h1, if_neg h2]
        exact ⟨v, rfl, hwf', rfl, rfl, rfl, rfl, fun j _ => rfl,
          fun t ht htm => absurd (lt_of_le_of_lt ht htm) (lt_irrefl 0)⟩

/-! Full characterization of `set_data`. -/

theorem set_data_spec (v : ConcurrentVectorImpl α) (d : α) (off cnt : Int)
    (src : List α) (hwf : v.WF) (hoff : 0 ≤ off) (hcnt : 0 < cnt)
    (hsrc : cnt * v.Dim ≤ (src.length : Int)) :
    ∃ v', v.set_data d off src cnt = some v' ∧ v'.WF ∧ v'.Dim = v.Dim ∧
      v'.chunk_size = v.chunk_size ∧
      ∀ k : Int, 0 ≤ k → k < cnt →
        v'.get_element (off + k)
          = .ok ((src.drop (k * v.Dim).toNat).take v.Dim.toNat) := by
  obtain ⟨hInv, hcs, hD, hlenAll⟩ := hwf
  have hwf' : v.WF := ⟨hInv, hcs, hD, hlenAll⟩
  have hwfg : (v.grow_to_at_least d (off + cnt)).WF := grow_WF v d (off + cnt) hwf'
  have hcapg : off + cnt
      ≤ ((v.grow_to_at_least d (off + cnt)).chunks.vec.length : Int) * v.chunk_size :=
    grow_capacity v d (off + cnt) hwf'
  have hgDim : (v.grow_to_at_least d (off + cnt)).Dim = v.Dim := rfl
  have hgcs : (v.grow_to_at_least d (off + cnt)).chunk_size = v.chunk_size := rfl
  have hci0 : 0 ≤ Int.tdiv off v.chunk_size := by
    rw [Int.tdiv_eq_ediv hoff (le_of_lt hcs)]
    exact Int.ediv_nonneg hoff (le_of_lt hcs)
  have hco0 : 0 ≤ Int.tmod off v.chunk_size := by
    rw [Int.tmod_eq_emod hoff (le_of_lt hcs)]
    exact Int.emod_nonneg off (ne_of_gt hcs)
  have hcolt : Int.tmod off v.chunk_size < v.chunk_size := by
    rw [Int.tmod_eq_emod hoff (le_of_lt hcs)]
    exact Int.emod_lt_of_pos off hcs
  have hdecomp : Int.tdiv off v.chunk_size * v.chunk_size + Int.tmod off v.chunk_size
      = off := by
    rw [Int.tdiv_eq_ediv hoff (le_of_lt hcs), Int.tmod_eq_emod hoff (le_of_lt hcs)]
    rw [mul_comm]
    exact Int.ediv_add_emod off v.chunk_size
  have hcilen : Int.tdiv off v.chunk_size
      < ((v.grow_to_at_least d (off + cnt)).chunks.vec.length : Int) := by
    have h1 : Int.tdiv off v.chunk_size * v.chunk_size
        < ((v.grow_to_at_least d (off + cnt)).chunks.vec.length : Int) * v.chunk_size := by
      linarith
    exact lt_of_mul_lt_mul_right h1 (le_of_lt hcs)
  have hcitoNat : (Int.tdiv off v.chunk_size).toNat
      < (v.grow_to_at_least d (off + cnt)).chunks.vec.length := by omega
  have hc0 : ¬ (cnt = 0) := by omega
  have hc1 : ¬ (v.chunk_size ≤ 0) := by omega
  unfold ConcurrentVectorImpl.set_data
  rw [if_neg hc0, if_neg hc1]
  dsimp only
  simp only [zero_add]
  by_cases hbr : Int.tmod off v.chunk_size + cnt ≤ v.chunk_size
  · -- the whole range fits inside the first chunk
    rw [if_pos hbr]
    obtain ⟨v2, hfill, hwf2, hDim2, hcs2, hlen2, hsize2, hpres2, hread2⟩ :=
      readElem_after_fill (v.grow_to_at_least d (off + cnt)) hwfg
        (Int.tdiv off v.chunk_size) (Int.tmod off v.chunk_size) cnt src 0
        hci0 hcitoNat hco0 hcnt hbr (le_refl 0) (by rw [zero_add, hgDim]; exact hsrc)
    simp only [zero_add, hgDim] at hread2
    rw [hgDim] at hDim2
    rw [hgcs] at hcs2
    refine ⟨v2, hfill, hwf2, hDim2, hcs2, ?_⟩
    intro k hk hklt
    have hib : off + k < (v2.chunks.vec.length : Int) * v2.chunk_size := by
      rw [hlen2, hcs2]
      linarith
    rw [get_element_eq_readElem v2 (off + k) hwf2 (by omega) hib]
    have hidx : off + k = Int.tdiv off v.chunk_size * v.chunk_size
        + (Int.tmod off v.chunk_size + k) := by omega
    have hA := readElem_at v2 (Int.tdiv off v.chunk_size)
      (Int.tmod off v.chunk_size + k) hci0 (by omega) (by rw [hcs2]; omega)
    rw [hcs2, hDim2] at hA
    rw [hidx, hA]
    exact congrArg AccessResult.ok (hread2 k hk hklt)
  · -- the range spans a chunk boundary
    rw [if_neg hbr]
    have hfs0 : 0 < v.chunk_size - Int.tmod off v.chunk_size := by omega
    have hfslt : v.chunk_size - Int.tmod off v.chunk_size < cnt := by omega
    obtain ⟨g2, hfill, hwf2, hDim2, hcs2, hlen2, hsize2, hpres2, hread2⟩ :=
      readElem_after_fill (v.grow_to_at_least d (off + cnt)) hwfg
        (Int.tdiv off v.chunk_size) (Int.tmod off v.chunk_size)
        (v.chunk_size - Int.tmod off v.chunk_size) src 0
        hci0 hcitoNat hco0 hfs0 (by rw [hgcs]; omega) (le_refl 0)
        (by
          rw [zero_add, hgDim]
          exact le_trans (mul_le_mul_of_nonneg_right (by omega) hD) hsrc)
    simp only [zero_add, hgDim] at hread2
    rw [hgDim] at hDim2
    rw [hgcs] at hcs2
    obtain ⟨v', htail, hwf3, hDim3, hcs3, hlen3, hsize3, hpres3, hread3⟩ :=
      setDataTail_spec (cnt - (v.chunk_size - Int.tmod off v.chunk_size)).toNat g2
        (Int.tdiv off v.chunk_size + 1)
        (cnt - (v.chunk_size - Int.tmod off v.chunk_size)) src
        (v.chunk_size - Int.tmod off v.chunk_size)
        (le_refl _) hwf2 (by omega) (by omega) (by omega)
        (by
          rw [hcs2, hlen2]
          have hexp : (Int.tdiv off v.chunk_size + 1) * v.chunk_size
              = Int.tdiv off v.chunk_size * v.chunk_size + v.chunk_size := by ring
          linarith)
        (by
          rw [hDim2]
          have harg : v.chunk_size - Int.tmod off v.chunk_size
              + (cnt - (v.chunk_size - Int.tmod off v.chunk_size)) = cnt := by ring
          rw [harg]
          exact hsrc)
    refine ⟨v', ?_, hwf3, by rw [hDim3, hDim2], by rw [hcs3, hcs2], ?_⟩
    · rw [hfill]
      exact htail
    · intro k hk hklt
      have hib : off + k < (v'.chunks.vec.length : Int) * v'.chunk_size := by
        rw [hlen3, hlen2, hcs3, hcs2]
        linarith
      rw [get_element_eq_readElem v' (off + k) hwf3 (by omega) hib]
      by_cases hhead : k < v.chunk_size - Int.tmod off v.chunk_size
      · -- element written by the first partial fill
        have hidx : off + k = Int.tdiv off v.chunk_size * v.chunk_size
            + (Int.tmod off v.chunk_size + k) := by omega
        have hA := readElem_at v' (Int.tdiv off v.chunk_size)
          (Int.tmod off v.chunk_size + k) hci0 (by omega) (by rw [hcs3, hcs2]; omega)
        rw [hcs3, hcs2, hDim3, hDim2] at hA
        rw [hidx, hA]
        rw [hpres3 (Int.tdiv off v.chunk_size).toNat (by omega)]
        exact congrArg AccessResult.ok (hread2 k hk hhead)
      · -- element written by the tail loop
        have h := hread3 (k - (v.chunk_size - Int.tmod off v.chunk_size)) (by omega)
          (by omega)
        rw [hcs2, hDim2] at h
        have hidx : (Int.tdiv off v.chunk_size + 1) * v.chunk_size
            + (k - (v.chunk_size - Int.tmod off v.chunk_size)) = off + k := by
          have hexp : (Int.tdiv off v.chunk_size + 1) * v.chunk_size
              = Int.tdiv off v.chunk_size * v.chunk_size + v.chunk_size := by ring
          omega
        have harg : v.chunk_size - Int.tmod off v.chunk_size
            + (k - (v.chunk_size - Int.tmod off v.chunk_size)) = k := by ring
        rw [hidx, harg] at h
        exact congrArg AccessResult.ok h

/-! Shape preservation and size monotonicity of the mutating operations,
without any well-formedness hypothesis. -/

theorem setDataTail_dims :
    ∀ (fuel : Nat) (v v' : ConcurrentVectorImpl α) (ci ec : Int) (src : List α)
      (so : Int), ec.toNat ≤ fuel → v.setDataTail ci ec src so = some v' →
      v'.chunk_size = v.chunk_size ∧ v'.Dim = v.Dim ∧
        v'.chunks.size = v.chunks.size ∧
        v'.chunks.vec.length = v.chunks.vec.length := by
  intro fuel
  induction fuel with
  | zero =>
    intro v v' ci ec src so hfuel h
    rw [ConcurrentVectorImpl.setDataTail] at h
    split at h
    · split at h
      · split at h
        · rename_i hcs hfill v2 heq
          exact absurd hfuel (by omega)
        · cases h
      · cases h
    · split at h
      · exact fill_chunk_dims _ _ _ _ _ _ _ h
      · cases h
        exact ⟨rfl, rfl, rfl, rfl⟩
  | succ f ih =>
    intro v v' ci ec src so hfuel h
    rw [ConcurrentVectorImpl.setDataTail] at h
    split at h
    · split at h
      · split at h
        · rename_i h1 h2 v2 heq
          obtain ⟨ha, hb, hc, hd⟩ := ih v2 v' (ci + 1) (ec - v.chunk_size) src
            (so + v.chunk_size) (by omega) h
          obtain ⟨ha2, hb2, hc2, hd2⟩ := fill_chunk_dims _ _ _ _ _ _ _ heq
          exact ⟨ha.trans ha2, hb.trans hb2, hc.trans hc2, hd.trans hd2⟩
        · cases h
      · cases h
    · split at h
      · exact fill_chunk_dims _ _ _ _ _ _ _ h
      · cases h
        exact ⟨rfl, rfl, rfl, rfl⟩

theorem set_data_dims (v v' : ConcurrentVectorImpl α) (d : α) (off cnt : Int)
    (src : List α) (h : v.set_data d off src cnt = some v') :
    v'.chunk_size = v.chunk_size ∧ v'.Dim = v.Dim ∧
      v.chunks.size ≤ v'.chunks.size := by
  unfold ConcurrentVectorImpl.set_data at h
  split at h
  · cases h
    exact ⟨rfl, rfl, le_refl _⟩
  · split at h
    · cases h
    · dsimp only at h
      have hgrow : v.chunks.size
          ≤ (v.grow_to_at_least d (off + cnt)).chunks.size :=
        emplace_size_mono _ _ _
      split at h
      · obtain ⟨ha, hb, hc, _⟩ := fill_chunk_dims _ _ _ _ _ _ _ h
        exact ⟨ha, hb, by rw [hc]; exact hgrow⟩
      · split at h
        · rename_i g2 heq
          obtain ⟨ha, hb, hc, _⟩ := setDataTail_dims
            (cnt - (v.chunk_size - Int.tmod off v.chunk_size)).toNat _ _ _ _ _ _
            (le_refl _) h
          obtain ⟨ha2, hb2, hc2, _⟩ := fill_chunk_dims _ _ _ _ _ _ _ heq
          refine ⟨ha.trans ha2, hb.trans hb2, ?_⟩
          rw [hc, hc2]
          exact hgrow
        · cases h

/-! Truncating division of small negative numbers, for the negative-index claim. -/

theorem tdiv_neg_small {i cs : Int} (h1 : - cs < i) (h2 : i < 0) :
    Int.tdiv i cs = 0 := by
  have h3 : Int.tdiv (-i) cs = 0 := Int.tdiv_eq_zero_of_lt (by omega) (by omega)
  have h4 : Int.tdiv (-(-i)) cs = - Int.tdiv (-i) cs := Int.neg_tdiv (-i) cs
  rw [neg_neg] at h4
  omega

theorem tmod_neg_small {i cs : Int} (h1 : - cs < i) (h2 : i < 0) :
    Int.tmod i cs = i := by
  rw [Int.tmod_def, tdiv_neg_small h1 h2]
  ring

/-! ## Claim theorems -/

/-- C6 (amended): for every index at or above the published count,
`ThreadSafeVector::operator[]` fires the fatal `Assert(index < size_)` rather than
returning an error; and for every index with `0 ≤ index < published count` (the
lower bound is the amendment: the original claim promised this for every
`index < published count`, but a negative index passes the assertion and reads out
of range) the assertion does not fire and the element of the underlying deque at
that position - a reference into an existing chunk - is returned. -/
theorem C6_get_bounds (α : Type) (v : ThreadSafeVector α) (i : Int) :
    (v.size ≤ i → v.get i = .assertFail)
  ∧ (v.Inv → 0 ≤ i → i < v.size →
      ∃ x, v.get i = .ok x ∧ v.vec[i.toNat]? = some x) := by
  constructor
  · intro h
    unfold ThreadSafeVector.get
    rw [if_neg (by omega)]
  · intro hInv h0 hi
    obtain ⟨hlt, hget⟩ := ThreadSafeVector_get_ok v i hInv h0 hi
    refine ⟨v.vec.get ⟨i.toNat, hlt⟩, hget, ?_⟩
    rw [List.getElem?_eq_getElem hlt]
    rfl

/-- C6 witness: at a concrete in-range index the accessor returns the stored
element, and at a concrete out-of-range index it fires the assertion. -/
theorem C6_get_bounds_witness :
    (⟨[7], 1⟩ : ThreadSafeVector Int).get 5 = .assertFail
  ∧ ∃ x, (⟨[7], 1⟩ : ThreadSafeVector Int).get 0 = .ok x ∧
      ((⟨[7], 1⟩ : ThreadSafeVector Int).vec)[(0 : Int).toNat]? = some x :=
  ⟨(C6_get_bounds Int ⟨[7], 1⟩ 5).1 (by decide),
    (C6_get_bounds Int ⟨[7], 1⟩ 0).2 (by decide) (by decide) (by decide)⟩

/-- C6 counterexample: the claim as stated says that whenever
`index < published count` the access returns a reference into an existing chunk;
at `index = -1` with published count `1` the assertion `index < size_` passes,
yet the deque access `vec_[-1]` is out of range (undefined behaviour), not a
reference into any existing chunk. -/
theorem C6_counterexample :
    (-1 : Int) < (⟨[7], 1⟩ : ThreadSafeVector Int).size ∧
    (⟨[7], 1⟩ : ThreadSafeVector Int).get (-1) = .undefinedAccess := by
  decide

/-- C9: the growable chunk collection's invariant: the published counter equals
the number of chunks present initially and after every `emplace_to_at_least`;
the counter is monotonically non-decreasing; and every operation only ever
appends chunks at the end - existing chunks are never removed, reordered, or
replaced (`get` does not mutate: it is a pure function of the state). -/
theorem C9_collection_invariant (α : Type) :
    (⟨[], 0⟩ : ThreadSafeVector α).Inv
  ∧ (∀ (v : ThreadSafeVector α) (n : Int) (a : α),
      v.Inv → (v.emplace_to_at_least n a).Inv)
  ∧ (∀ (v : ThreadSafeVector α) (n : Int) (a : α),
      v.size ≤ (v.emplace_to_at_least n a).size)
  ∧ (∀ (v : ThreadSafeVector α) (n : Int) (a : α),
      ∃ t, (v.emplace_to_at_least n a).vec = v.vec ++ t) :=
  ⟨rfl, fun v n a hv => emplace_Inv v n a hv, fun v n a => emplace_size_mono v n a,
    fun v n a => emplace_append_only v n a⟩

/-- C9 witness: the invariant is preserved at a concrete state and target. -/
theorem C9_collection_invariant_witness :
    ((⟨[7], 1⟩ : ThreadSafeVector Int).emplace_to_at_least 3 9).Inv :=
  (C9_collection_invariant Int).2.1 ⟨[7], 1⟩ 3 9 (by decide)

/-- C10: negative indices pass the bounds assertion.  `ThreadSafeVector::operator[]`
checks only `index < size_`, so every negative index passes the check (no fatal
abort) and the deque access proceeds out of range (undefined behaviour).  The
same applies to `get_chunk` (which forwards straight to that accessor), and
`get_element` and the scalar `operator[]` apply their division/modulus index
arithmetic to negative element indices with no lower-bound check: for
`-chunk_size < i < 0` the truncating division selects chunk 0 and a negative
in-chunk offset, and the raw access proceeds out of range. -/
theorem C10_negative_indices (α : Type) :
    (∀ (v : ThreadSafeVector α) (i : Int), 0 ≤ v.size → i < 0 →
      v.get i = .undefinedAccess)
  ∧ (∀ (w : ConcurrentVectorImpl α) (ci : Int), 0 ≤ w.chunks.size → ci < 0 →
      w.get_chunk ci = .undefinedAccess)
  ∧ (∀ (w : ConcurrentVectorImpl α) (i : Int), w.WF → 0 < w.Dim →
      0 < w.chunks.size → - w.chunk_size < i → i < 0 →
      w.get_element i = .undefinedAccess)
  ∧ (∀ (w : ConcurrentVectorImpl α) (i : Int), w.Dim = 1 → w.WF →
      0 < w.chunks.size → - w.chunk_size < i → i < 0 →
      w.subscript i = .undefinedAccess) := by
  have hbase : ∀ (β : Type) (v : ThreadSafeVector β) (i : Int), 0 ≤ v.size → i < 0 →
      v.get i = .undefinedAccess := by
    intro β v i hs hi
    unfold ThreadSafeVector.get
    rw [if_pos (by omega)]
    rw [dif_neg (fun hcon => absurd hcon.1 (by omega))]
  refine ⟨hbase α, fun w ci hs hci => hbase (List α) w.chunks ci hs hci, ?_, ?_⟩
  · intro w i hwf hDpos hs h1 h2
    obtain ⟨hInv, hcs, hD, hlenAll⟩ := hwf
    unfold ThreadSafeVector.Inv at hInv
    unfold ConcurrentVectorImpl.get_element
    dsimp only
    rw [tdiv_neg_small h1 h2, tmod_neg_small h1 h2]
    obtain ⟨hlt, hget⟩ := ThreadSafeVector_get_ok w.chunks 0 hInv (le_refl 0) hs
    unfold ConcurrentVectorImpl.get_chunk
    rw [hget]
    dsimp only
    rw [if_neg (fun hcon => absurd hcon.1
      (not_le.mpr (mul_neg_of_neg_of_pos h2 hDpos)))]
  · intro w i hD1 hwf hs h1 h2
    obtain ⟨hInv, hcs, hD, hlenAll⟩ := hwf
    unfold ThreadSafeVector.Inv at hInv
    unfold ConcurrentVectorImpl.subscript
    rw [if_pos hD1]
    dsimp only
    rw [tdiv_neg_small h1 h2]
    obtain ⟨hlt, hget⟩ := ThreadSafeVector_get_ok w.chunks 0 hInv (le_refl 0) hs
    unfold ConcurrentVectorImpl.get_chunk
    rw [hget]
    dsimp only
    rw [dif_neg (fun hcon => absurd hcon.1
      (by rw [tmod_neg_small h1 h2]; omega))]

/-- C10 witness: a concrete one-chunk scalar column and the concrete index `-1`:
every accessor passes its assertion and reads out of range. -/
theorem C10_negative_indices_witness :
    (⟨[5], 1⟩ : ThreadSafeVector Int).get (-1) = .undefinedAccess
  ∧ (⟨4, 1, ⟨[[1, 2, 3, 4]], 1⟩⟩ : ConcurrentVectorImpl Int).get_element (-1)
      = .undefinedAccess
  ∧ (⟨4, 1, ⟨[[1, 2, 3, 4]], 1⟩⟩ : ConcurrentVectorImpl Int).subscript (-1)
      = .undefinedAccess :=
  ⟨(C10_negative_indices Int).1 ⟨[5], 1⟩ (-1) (by decide) (by decide),
    (C10_negative_indices Int).2.2.1 ⟨4, 1, ⟨[[1, 2, 3, 4]], 1⟩⟩ (-1) (by decide)
      (by decide) (by decide) (by decide) (by decide),
    (C10_negative_indices Int).2.2.2 ⟨4, 1, ⟨[[1, 2, 3, 4]], 1⟩⟩ (-1) (by decide)
      (by decide) (by decide) (by decide) (by decide)⟩

/-! Closed forms of the constructors. -/

theorem mk'_eq (α : Type) (b : Bool) (dim cs : Int) :
    ConcurrentVectorImpl.mk' α b dim cs
      = if (if b then dim = 1 else dim ≠ 1)
        then some ⟨cs, if b then 1 else dim, ⟨[], 0⟩⟩ else none := rfl

theorem mkBinaryConcurrentVector_eq (α : Type) (dim cs : Int) :
    mkBinaryConcurrentVector α dim cs
      = if Int.tdiv dim 8 ≠ 1 ∧ Int.tmod dim 8 = 0
        then some (⟨cs, Int.tdiv dim 8, ⟨[], 0⟩⟩, dim) else none := by
  unfold mkBinaryConcurrentVector
  rw [mk'_eq]
  by_cases h1 : Int.tdiv dim 8 ≠ 1 <;> by_cases h2 : Int.tmod dim 8 = 0 <;>
    simp [h1, h2]

/-- C7: a column is successfully constructed iff the dimension matches the layout:
`dim == 1` for a scalar layout and `dim != 1` for a vector layout (the constructor
asserts `is_scalar ? dim == 1 : dim != 1`); on success `Dim` and `chunk_size_`
are fixed to their construction values, and every subsequent operation
(`grow_to_at_least`, `set_data`) leaves both unchanged. -/
theorem C7_construction_contract (α : Type) :
    (∀ (is_scalar : Bool) (dim cs : Int),
      (∃ v, ConcurrentVectorImpl.mk' α is_scalar dim cs = some v)
        ↔ ((is_scalar = true → dim = 1) ∧ (is_scalar = false → dim ≠ 1)))
  ∧ (∀ (is_scalar : Bool) (dim cs : Int) (v : ConcurrentVectorImpl α),
      ConcurrentVectorImpl.mk' α is_scalar dim cs = some v →
        v.chunk_size = cs ∧ v.Dim = (if is_scalar then 1 else dim))
  ∧ (∀ (v : ConcurrentVectorImpl α) (d : α) (n : Int),
      (v.grow_to_at_least d n).Dim = v.Dim ∧
      (v.grow_to_at_least d n).chunk_size = v.chunk_size)
  ∧ (∀ (v v' : ConcurrentVectorImpl α) (d : α) (off cnt : Int) (src : List α),
      v.set_data d off src cnt = some v' →
        v'.Dim = v.Dim ∧ v'.chunk_size = v.chunk_size) := by
  refine ⟨?_, ?_, fun v d n => ⟨rfl, rfl⟩, ?_⟩
  · intro b dim cs
    rw [mk'_eq]
    cases b <;> by_cases h : dim = 1 <;> simp [h]
  · intro b dim cs v h
    rw [mk'_eq] at h
    by_cases hc : (if b then dim = 1 else dim ≠ 1)
    · rw [if_pos hc, Option.some.injEq] at h
      exact ⟨by rw [← h], by rw [← h]⟩
    · rw [if_neg hc] at h
      exact Option.noConfusion h
  · intro v v' d off cnt src h
    obtain ⟨ha, hb, _⟩ := set_data_dims v v' d off cnt src h
    exact ⟨hb, ha⟩

/-- C7 witness: concrete constructions succeed and fail as the contract says, and
the parameters survive a concrete `set_data`. -/
theorem C7_construction_contract_witness :
    (∃ v, ConcurrentVectorImpl.mk' Int true 1 4 = some v)
  ∧ ((true = true → (1 : Int) = 1) ∧ (true = false → (1 : Int) ≠ 1)) := by
  constructor
  · exact ⟨_, rfl⟩
  · exact (C7_construction_contract Int).1 true 1 4 |>.mp ⟨_, rfl⟩

/-- C5 (amended): constructing the binary-vector front-end with bit width `b`
aborts iff `b % 8 != 0` or `b / 8 == 1`: the base class is initialized with byte
dimension `b / 8` before the body's `Assert(b % 8 == 0)` runs, and the base
constructor's `Assert(dim != 1)` for non-scalar layouts also fires when
`b / 8 == 1` (e.g. for `b = 8`, which is divisible by 8 yet aborts).  On success
the internal byte-dimension is `b / 8`; bit-width 16 with chunk capacity 100
gives byte-dimension 2 and `grow_to_at_least(250)` then yields 3 chunks;
bit-width 15 aborts at construction. -/
theorem C5_binary_construction (α : Type) :
    (∀ (dim cs : Int),
      (∃ p, mkBinaryConcurrentVector α dim cs = some p)
        ↔ (Int.tmod dim 8 = 0 ∧ Int.tdiv dim 8 ≠ 1))
  ∧ (∀ (dim cs : Int) (w : ConcurrentVectorImpl α) (bd : Int),
      mkBinaryConcurrentVector α dim cs = some (w, bd) →
        w.Dim = Int.tdiv dim 8 ∧ bd = dim)
  ∧ (∀ d : α, ∃ w, mkBinaryConcurrentVector α 16 100 = some (w, 16) ∧ w.Dim = 2 ∧
      (w.grow_to_at_least d 250).num_chunk = 3)
  ∧ mkBinaryConcurrentVector α 15 100 = none := by
  refine ⟨?_, ?_, ?_, ?_⟩
  · intro dim cs
    rw [mkBinaryConcurrentVector_eq]
    by_cases h1 : Int.tdiv dim 8 ≠ 1 <;> by_cases h2 : Int.tmod dim 8 = 0 <;>
      simp [h1, h2]
  · intro dim cs w bd h
    rw [mkBinaryConcurrentVector_eq] at h
    split at h
    · cases h
      exact ⟨rfl, rfl⟩
    · cases h
  · intro d
    refine ⟨⟨100, 2, ⟨[], 0⟩⟩, ?_, rfl, ?_⟩
    · rw [mkBinaryConcurrentVector_eq, if_pos (by decide)]
      rfl
    · show ((⟨100, 2, ⟨[], 0⟩⟩ :
          ConcurrentVectorImpl α).grow_to_at_least d 250).num_chunk = 3
      simp [ConcurrentVectorImpl.grow_to_at_least, ConcurrentVectorImpl.num_chunk,
        ThreadSafeVector.emplace_to_at_least, emplaceLoop, upper_div]
  · rw [mkBinaryConcurrentVector_eq, if_neg (by decide)]

/-- C5 witness: the successful construction at bit width 16 has byte-dimension
`16 / 8 = 2` and records the original bit width. -/
theorem C5_binary_construction_witness :
    (⟨100, 2, ⟨[], 0⟩⟩ : ConcurrentVectorImpl Nat).Dim = Int.tdiv 16 8
  ∧ (16 : Int) = 16 :=
  (C5_binary_construction Nat).2.1 16 100 ⟨100, 2, ⟨[], 0⟩⟩ 16 (by decide)

/-- C5 counterexample: bit width 8 is divisible by 8, yet construction aborts -
the byte dimension `8 / 8 = 1` trips the base constructor's `dim != 1` assertion -
refuting the claim that construction aborts if and only if the bit width is not
divisible by 8. -/
theorem C5_binary_counterexample :
    Int.tmod 8 8 = 0 ∧ mkBinaryConcurrentVector Nat 8 100 = none := by
  constructor
  · decide
  · rw [mkBinaryConcurrentVector_eq]
    norm_num

/-- C2: growth postcondition on a fresh column: for every `n ≥ 0`, after
`grow_to_at_least(n)` the chunk count equals `ceil(n / chunk_capacity)`
(`upper_div`), every allocated chunk consists of `Dim * chunk_size_`
default-initialized slots, and the total capacity covers at least `n` logical
elements. -/
theorem C2_growth_postcondition (α : Type) (v : ConcurrentVectorImpl α) (d : α)
    (n : Int) (hn : 0 ≤ n) (hcs : 0 < v.chunk_size)
    (hfresh : v.chunks = ⟨[], 0⟩) :
    (v.grow_to_at_least d n).num_chunk = upper_div n v.chunk_size
  ∧ (v.grow_to_at_least d n).chunks.vec
      = List.replicate (upper_div n v.chunk_size).toNat
          (List.replicate (v.Dim * v.chunk_size).toNat d)
  ∧ n ≤ (v.grow_to_at_least d n).num_chunk * v.chunk_size := by
  have hInv : v.chunks.Inv := by
    rw [hfresh]
    rfl
  have hsize : (v.grow_to_at_least d n).num_chunk = upper_div n v.chunk_size := by
    show (v.grow_to_at_least d n).chunks.size = _
    rw [grow_size v d n hInv, hfresh]
    exact max_eq_right (upper_div_nonneg hn hcs)
  refine ⟨hsize, ?_, ?_⟩
  · rw [grow_vec v d n hInv, hfresh]
    simp
  · rw [hsize]
    exact le_upper_div_mul hcs

/-- C2 witness: a fresh scalar column with chunk capacity 4 grown to 6 elements
has 2 chunks of 4 default slots each, covering at least 6 elements. -/
theorem C2_growth_postcondition_witness :
    ((⟨4, 1, ⟨[], 0⟩⟩ : ConcurrentVectorImpl Int).grow_to_at_least 0 6).num_chunk
        = upper_div 6 4
  ∧ ((⟨4, 1, ⟨[], 0⟩⟩ : ConcurrentVectorImpl Int).grow_to_at_least 0 6).chunks.vec
      = List.replicate (upper_div 6 4).toNat
          (List.replicate ((1 : Int) * 4).toNat 0)
  ∧ (6 : Int) ≤ ((⟨4, 1, ⟨[], 0⟩⟩ :
        ConcurrentVectorImpl Int).grow_to_at_least 0 6).num_chunk * 4 :=
  C2_growth_postcondition Int ⟨4, 1, ⟨[], 0⟩⟩ 0 6 (by decide) (by decide) rfl

/-- C4: idempotence and monotonicity of growth: growing to `n` and then to any
`m ≤ n` leaves the chunk count exactly where the first growth put it; and no
operation ever decreases the chunk count (`grow_to_at_least` and a successful
`set_data` never shrink it, `fill_chunk` leaves it unchanged). -/
theorem C4_growth_idempotent_monotone (α : Type) :
    (∀ (v : ConcurrentVectorImpl α) (d d' : α) (n m : Int), v.chunks.Inv →
      0 < v.chunk_size → m ≤ n →
      ((v.grow_to_at_least d n).grow_to_at_least d' m).num_chunk
        = (v.grow_to_at_least d n).num_chunk)
  ∧ (∀ (v : ConcurrentVectorImpl α) (d : α) (n : Int),
      v.num_chunk ≤ (v.grow_to_at_least d n).num_chunk)
  ∧ (∀ (v v' : ConcurrentVectorImpl α) (d : α) (off cnt : Int) (src : List α),
      v.set_data d off src cnt = some v' → v.num_chunk ≤ v'.num_chunk)
  ∧ (∀ (v v' : ConcurrentVectorImpl α) (ci co ec : Int) (src : List α) (so : Int),
      v.fill_chunk ci co ec src so = some v' → v'.num_chunk = v.num_chunk) := by
  refine ⟨?_, ?_, ?_, ?_⟩
  · intro v d d' n m hInv hcs hmn
    have hInv1 : (v.grow_to_at_least d n).chunks.Inv := grow_Inv v d n hInv
    show ((v.grow_to_at_least d n).grow_to_at_least d' m).chunks.size
        = (v.grow_to_at_least d n).chunks.size
    rw [grow_size _ d' m hInv1, grow_size v d n hInv]
    have hmono : upper_div m v.chunk_size ≤ upper_div n v.chunk_size :=
      upper_div_mono hcs hmn
    have h1 : upper_div m ((v.grow_to_at_least d n).chunk_size)
        = upper_div m v.chunk_size := rfl
    rw [h1]
    omega
  · intro v d n
    exact emplace_size_mono _ _ _
  · intro v v' d off cnt src h
    exact (set_data_dims v v' d off cnt src h).2.2
  · intro v v' ci co ec src so h
    exact (fill_chunk_dims v v' ci co ec src so h).2.2.1

/-- C4 witness: growing a fresh column to 6 and then back down to 3 leaves the
chunk count unchanged. -/
theorem C4_growth_idempotent_monotone_witness :
    (((⟨4, 1, ⟨[], 0⟩⟩ : ConcurrentVectorImpl Int).grow_to_at_least 0
          6).grow_to_at_least 0 3).num_chunk
      = ((⟨4, 1, ⟨[], 0⟩⟩ :
          ConcurrentVectorImpl Int).grow_to_at_least 0 6).num_chunk :=
  (C4_growth_idempotent_monotone Int).1 ⟨4, 1, ⟨[], 0⟩⟩ 0 0 6 3 (by decide)
    (by decide) (by decide)

/-- C8: the scalar single-value accessor `operator[]`: on a layout whose `Dim` is
not 1 it fires the fatal `Assert(Dim == 1)`; on a scalar layout (`Dim == 1`, with
the index in range) it returns exactly the value stored in chunk
`element_index / chunk_size_` at in-chunk offset `element_index % chunk_size_`. -/
theorem C8_scalar_subscript (α : Type) (v : ConcurrentVectorImpl α) (i : Int) :
    (v.Dim ≠ 1 → v.subscript i = .assertFail)
  ∧ (v.Dim = 1 → v.WF → 0 ≤ i → i < (v.chunks.vec.length : Int) * v.chunk_size →
      ∃ x, v.subscript i = .ok x ∧
        (v.chunks.vec.getD (Int.tdiv i v.chunk_size).toNat
            [])[(Int.tmod i v.chunk_size).toNat]? = some x) := by
  constructor
  · intro h
    unfold ConcurrentVectorImpl.subscript
    rw [if_neg h]
  · intro hD1 hwf h0 hlt
    obtain ⟨hInv, hcs, hD, hlenAll⟩ := hwf
    have hdiv : Int.tdiv i v.chunk_size = i / v.chunk_size :=
      Int.tdiv_eq_ediv h0 (le_of_lt hcs)
    have hmod : Int.tmod i v.chunk_size = i % v.chunk_size :=
      Int.tmod_eq_emod h0 (le_of_lt hcs)
    have hq0 : 0 ≤ i / v.chunk_size := Int.ediv_nonneg h0 (le_of_lt hcs)
    have hqlt : i / v.chunk_size < (v.chunks.vec.length : Int) :=
      (Int.ediv_lt_iff_lt_mul hcs).mpr hlt
    unfold ThreadSafeVector.Inv at hInv
    obtain ⟨h2, hget⟩ := ThreadSafeVector_get_ok v.chunks (i / v.chunk_size) hInv
      hq0 (by omega)
    have hclen : ((v.chunks.vec.getD (i / v.chunk_size).toNat []).length : Int)
        = v.Dim * v.chunk_size :=
      chunk_len v ⟨hInv, hcs, hD, hlenAll⟩ _ h2
    rw [hD1, one_mul] at hclen
    have hr0 : 0 ≤ i % v.chunk_size := Int.emod_nonneg i (ne_of_gt hcs)
    have hr1 : i % v.chunk_size < v.chunk_size := Int.emod_lt_of_pos i hcs
    have hjlt : (i % v.chunk_size).toNat
        < (v.chunks.vec.getD (i / v.chunk_size).toNat []).length := by omega
    have hchunk : v.chunks.vec.get ⟨(i / v.chunk_size).toNat, h2⟩
        = v.chunks.vec.getD (i / v.chunk_size).toNat [] := by
      rw [List.getD_eq_getElem _ _ h2]
      rfl
    have hget2 : v.chunks.get (Int.tdiv i v.chunk_size)
        = AccessResult.ok (v.chunks.vec.getD (Int.tdiv i v.chunk_size).toNat []) := by
      rw [hdiv, hget]
      exact congrArg AccessResult.ok hchunk
    have hjlt2 : (Int.tmod i v.chunk_size).toNat
        < (v.chunks.vec.getD (Int.tdiv i v.chunk_size).toNat []).length := by
      rw [hdiv, hmod]
      exact hjlt
    refine ⟨(v.chunks.vec.getD (Int.tdiv i v.chunk_size).toNat []).get
      ⟨(Int.tmod i v.chunk_size).toNat, hjlt2⟩, ?_, ?_⟩
    · unfold ConcurrentVectorImpl.subscript ConcurrentVectorImpl.get_chunk
      rw [if_pos hD1]
      dsimp only
      rw [hget2]
      dsimp only
      rw [dif_pos ⟨by rw [hmod]; exact hr0, hjlt2⟩]
    · rw [List.getElem?_eq_getElem hjlt2]
      rfl

/-- C8 witness: a concrete scalar column with one chunk `[9, 8, 7, 6]` and index 2
returns the value at chunk 0, offset 2. -/
theorem C8_scalar_subscript_witness :
    ∃ x, (⟨4, 1, ⟨[[9, 8, 7, 6]], 1⟩⟩ : ConcurrentVectorImpl Int).subscript 2
        = .ok x ∧
      ((⟨4, 1, ⟨[[9, 8, 7, 6]], 1⟩⟩ :
          ConcurrentVectorImpl Int).chunks.vec.getD (Int.tdiv 2 4).toNat
          [])[(Int.tmod 2 4).toNat]? = some x :=
  (C8_scalar_subscript Int ⟨4, 1, ⟨[[9, 8, 7, 6]], 1⟩⟩ 2).2 (by decide) (by decide)
    (by decide) (by decide)

/-- C1: round-trip of bulk write and element read: for every well-formed column
instance, every `element_offset ≥ 0` and `count > 0`, after
`set_data(element_offset, buf, count)` with `buf` holding `count` elements of
`Dim` scalar components each, `get_element(element_offset + k)` addresses exactly
the `Dim` scalar components of `buf`'s `k`-th element, for all `k` in
`[0, count)` - including when the written range spans chunk boundaries. -/
theorem C1_round_trip (α : Type) (v : ConcurrentVectorImpl α) (d : α)
    (element_offset count : Int) (buf : List α) (hwf : v.WF)
    (hoff : 0 ≤ element_offset) (hcnt : 0 < count)
    (hbuf : (buf.length : Int) = count * v.Dim) :
    ∃ v', v.set_data d element_offset buf count = some v' ∧
      ∀ k : Int, 0 ≤ k → k < count →
        v'.get_element (element_offset + k)
          = .ok ((buf.drop (k * v.Dim).toNat).take v.Dim.toNat) := by
  obtain ⟨v', h1, _, _, _, h5⟩ := set_data_spec v d element_offset count buf hwf
    hoff hcnt (le_of_eq hbuf.symm)
  exact ⟨v', h1, h5⟩

/-- C1 witness: a fresh scalar column with chunk capacity 4: writing 6 values at
offset 2 spans a chunk boundary, and every written element reads back. -/
theorem C1_round_trip_witness :
    ∃ v', (⟨4, 1, ⟨[], 0⟩⟩ : ConcurrentVectorImpl Int).set_data 0 2
        [10, 20, 30, 40, 50, 60] 6 = some v' ∧
      ∀ k : Int, 0 ≤ k → k < 6 →
        v'.get_element (2 + k)
          = .ok ((([10, 20, 30, 40, 50, 60] : List Int).drop
              (k * 1).toNat).take (1 : Int).toNat) :=
  C1_round_trip Int ⟨4, 1, ⟨[], 0⟩⟩ 0 2 6 [10, 20, 30, 40, 50, 60] (by decide)
    (by decide) (by decide) (by decide)

/-- C3: boundary-spanning copy example: a fresh scalar column with chunk capacity
4 and dimension 1 (exactly what the scalar front-end constructs); after
`set_data(2, [a1..a6], 6)`, chunk 0 is `[d, d, a1, a2]` and chunk 1 is
`[a3, a4, a5, a6]` where `d` is the default-initialized value, and `num_chunk()`
is 2. -/
theorem C3_boundary_spanning_copy (α : Type) (d a1 a2 a3 a4 a5 a6 : α) :
    ConcurrentVectorImpl.mk' α true 1 4 = some ⟨4, 1, ⟨[], 0⟩⟩
  ∧ ∃ v', (⟨4, 1, ⟨[], 0⟩⟩ : ConcurrentVectorImpl α).set_data d 2
        [a1, a2, a3, a4, a5, a6] 6 = some v'
      ∧ v'.get_chunk 0 = .ok [d, d, a1, a2]
      ∧ v'.get_chunk 1 = .ok [a3, a4, a5, a6]
      ∧ v'.num_chunk = 2 := by
  constructor
  · rw [mk'_eq]
    rfl
  · refine ⟨⟨4, 1, ⟨[[d, d, a1, a2], [a3, a4, a5, a6]], 2⟩⟩, ?_, ?_, ?_, rfl⟩
    · simp [ConcurrentVectorImpl.set_data, ConcurrentVectorImpl.grow_to_at_least,
        ConcurrentVectorImpl.fill_chunk, ConcurrentVectorImpl.setDataTail,
        ThreadSafeVector.emplace_to_at_least, emplaceLoop, ThreadSafeVector.get,
        upper_div, Int.tdiv_eq_ediv, Int.tmod_eq_emod]
    · simp [ConcurrentVectorImpl.get_chunk, ThreadSafeVector.get]
    · simp [ConcurrentVectorImpl.get_chunk, ThreadSafeVector.get]

end MilvusSegcore
